import Mathlib

/-!
Verification development for the numerical-derivative node of the Poincare
expression engine (src/poincare/src/derivative.cpp).

The scalar type `T` (float or double) is modelled by `F`: exact rationals
extended with two infinities and a NaN, with IEEE-754-style propagation for
the arithmetic and comparison operators the code uses.  Rational arithmetic
is exact, so the model has a single zero and no rounding; the `volatile`
step-snapping trick of the source is the identity on finite values here and
is kept as an explicit `snapStep`.  The tuning constants of derivative.h
(k_rateStepSize, k_minInitialRate, k_maxErrorRateOnApproximation) and the
float.h limits are not part of src/, so they are kept as abstract rational
parameters in a `Traits` record.
-/

/-- Model of the C scalar type `T`: a rational number, a signed infinity
(`true` = positive), or NaN. -/
inductive F where
  | num : ℚ → F
  | inf : Bool → F
  | nan : F
deriving DecidableEq

namespace F

/-- Sign of a nonzero rational, `true` when positive. -/
def qsign (q : ℚ) : Bool := decide (0 < q)

/-- IEEE negation. -/
def neg : F → F
  | num q => num (-q)
  | inf s => inf (!s)
  | nan => nan

/-- IEEE addition (NaN absorbing, opposite infinities give NaN). -/
def add : F → F → F
  | nan, _ => nan
  | _, nan => nan
  | inf s, inf t => if s = t then inf s else nan
  | inf s, num _ => inf s
  | num _, inf t => inf t
  | num a, num b => num (a + b)

/-- IEEE subtraction. -/
def sub (a b : F) : F := add a (neg b)

/-- IEEE multiplication (`inf * 0` is NaN). -/
def mul : F → F → F
  | nan, _ => nan
  | _, nan => nan
  | inf s, inf t => inf (s == t)
  | inf s, num q => if q = 0 then nan else inf (s == qsign q)
  | num q, inf t => if q = 0 then nan else inf (qsign q == t)
  | num a, num b => num (a * b)

/-- IEEE division; the model has a single (positive) zero, so `a / 0` with
`a ≠ 0` is the infinity carrying `a`'s sign, and `0 / 0` is NaN. -/
def div : F → F → F
  | nan, _ => nan
  | _, nan => nan
  | inf _, inf _ => nan
  | inf s, num q => if q = 0 then inf s else inf (s == qsign q)
  | num _, inf _ => num 0
  | num a, num b => if b = 0 then (if a = 0 then nan else inf (qsign a)) else num (a / b)

/-- The std::fabs operation. -/
def fabs : F → F
  | num q => num |q|
  | inf _ => inf true
  | nan => nan

/-- IEEE strict less-than: any comparison involving NaN is false. -/
def lt : F → F → Bool
  | nan, _ => false
  | _, nan => false
  | inf s, inf t => !s && t
  | inf s, num _ => !s
  | num _, inf t => t
  | num a, num b => decide (a < b)

/-- IEEE less-or-equal: any comparison involving NaN is false. -/
def le : F → F → Bool
  | nan, _ => false
  | _, nan => false
  | inf s, inf t => !s || t
  | inf s, num _ => !s
  | num _, inf t => t
  | num a, num b => decide (a ≤ b)

/-- The std::isnan predicate. -/
def isnan : F → Bool
  | nan => true
  | _ => false

end F

/-- Numeric traits and tuning constants.  `eps`, `minPos`, `maxVal` are the
float.h limits for the instantiated width (FLT_EPSILON/DBL_EPSILON,
FLT_MIN/DBL_MIN, FLT_MAX/DBL_MAX).  Modelled from the spec: `rate`
(k_rateStepSize), `minRate` (k_minInitialRate) and `maxErr`
(k_maxErrorRateOnApproximation) live in derivative.h, which is not under
src/; the spec describes them only as fixed constants, so they stay
abstract rational parameters. -/
structure Traits where
  eps : ℚ
  minPos : ℚ
  maxVal : ℚ
  rate : ℚ
  minRate : ℚ
  maxErr : ℚ

/-- State of riddersApproximation: the 10x10 extrapolation table `a`, the
running best error `err` (`*error`) and answer `ans`.  `comp` and `trace`
are ghost instrumentation with no influence on the computed values: `comp`
records which table cells have been written, and `trace` records, in
program order, each pair `(errt, a[j][i])` considered by the
error-update test of the inner loop. -/
structure RidState where
  a : ℕ → ℕ → F
  err : F
  ans : F
  comp : ℕ → ℕ → Bool
  trace : List (F × F)

/-- Write one cell of the extrapolation table. -/
def updTable (A : ℕ → ℕ → F) (j i : ℕ) (v : F) : ℕ → ℕ → F :=
  fun j' i' => if j' = j ∧ i' = i then v else A j' i'

/-- Mark one cell of the ghost computed-set. -/
def updComp (C : ℕ → ℕ → Bool) (j i : ℕ) : ℕ → ℕ → Bool :=
  fun j' i' => if j' = j ∧ i' = i then true else C j' i'

/-- The Richardson combination computed at cell `(j, i)` (line 122):
`a[j][i] = (a[j-1][i]*fac - a[j-1][i-1]) / (fac - 1)`. -/
def cellVal (fac : ℚ) (s : RidState) (j i : ℕ) : F :=
  F.div (F.sub (F.mul (s.a (j-1) i) (F.num fac)) (s.a (j-1) (i-1)))
        (F.sub (F.num fac) (F.num 1))

/-- The discrepancy `errt` of line 124: the larger of
`|a[j][i]-a[j-1][i]|` and `|a[j][i]-a[j-1][i-1]|` (via the source's
`e1 > e2 ? e1 : e2` ternary, so NaN comparisons select the second). -/
def cellErrt (fac : ℚ) (s : RidState) (j i : ℕ) : F :=
  if F.lt (F.fabs (F.sub (cellVal fac s j i) (s.a (j-1) (i-1))))
          (F.fabs (F.sub (cellVal fac s j i) (s.a (j-1) i)))
  then F.fabs (F.sub (cellVal fac s j i) (s.a (j-1) i))
  else F.fabs (F.sub (cellVal fac s j i) (s.a (j-1) (i-1)))

/-- One iteration of the inner loop body (lines 122-129): store the
combination, then update `*error` and `ans` exactly when the discrepancy
strictly decreases. -/
def innerStep (i j : ℕ) (fac : ℚ) (s : RidState) : RidState :=
  { a := updTable s.a j i (cellVal fac s j i)
    err := if F.lt (cellErrt fac s j i) s.err then cellErrt fac s j i else s.err
    ans := if F.lt (cellErrt fac s j i) s.err then cellVal fac s j i else s.ans
    comp := updComp s.comp j i
    trace := s.trace ++ [(cellErrt fac s j i, cellVal fac s j i)] }

/-- Inner loop of riddersApproximation (`for (int j = 1; j < 10; j++)`),
for the current step-size generation `i`.  `n` is the number of remaining
iterations, `j` the current extrapolation order and `fac` the current
Richardson weight (`fac` starts at `rate^2` and is multiplied by `rate^2`
after each order, exactly as in the source). -/
def innerAux (rate : ℚ) (i : ℕ) : ℕ → ℕ → ℚ → RidState → RidState
  | 0, _, _, s => s
  | n+1, j, fac, s => innerAux rate i n (j+1) (rate * rate * fac) (innerStep i j fac s)

/-- Seeding of a new step-size generation (line 118): write the fresh
growth-rate estimate `g` into `a[0][i]`. -/
def seedCol (g : F) (i : ℕ) (s : RidState) : RidState :=
  { s with a := updTable s.a 0 i g, comp := updComp s.comp 0 i }

/-- The early-exit test of line 133:
`fabs(a[i][i]-a[i-1][i-1]) > 2*(*error)`. -/
def breakCond (s : RidState) (i : ℕ) : Bool :=
  F.lt (F.mul (F.num 2) s.err) (F.fabs (F.sub (s.a i i) (s.a (i-1) (i-1))))

/-- Outer loop of riddersApproximation (`for (int i = 1; i < 10; i++)`):
seed `a[0][i]` with a fresh growth-rate estimate (`grow i`), run the inner
loop, then early-exit when `|a[i][i] - a[i-1][i-1]| > 2 * (*error)`. -/
def outerAux (rate : ℚ) (grow : ℕ → F) : ℕ → ℕ → RidState → RidState
  | 0, _, s => s
  | n+1, i, s =>
    let s2 := innerAux rate i 9 1 (rate * rate) (seedCol (grow i) i s)
    if breakCond s2 i then s2
    else outerAux rate grow n (i+1) s2

/-- The `volatile T temp = x+h; hh = temp - x;` round-trip of the source:
in this exact-arithmetic model it is literally `(x + h) - x`. -/
def snapStep (x h : F) : F := F.sub (F.add x h) x

/-- The sequence of snapped step sizes used for the successive generations:
`hh` starts as the snapped initial step and is divided by k_rateStepSize
(then re-snapped) before each new generation. -/
def hhSeqF (tr : Traits) (x h : F) : ℕ → F
  | 0 => snapStep x h
  | i+1 => snapStep x (F.div (hhSeqF tr x h i) (F.num tr.rate))

/-- growthRateAroundAbscissa: the central difference
`(f(x+h) - f(x-h)) / (2h)`, where `f` abstracts
`approximateWithArgument` (the framework's evaluation of child 0 with the
differentiation symbol bound to the given scalar). -/
def growthRateAroundAbscissa (f : F → F) (x h : F) : F :=
  F.div (F.sub (f (F.add x h)) (f (F.sub x h))) (F.mul (F.num 2) h)

/-- Initial state of riddersApproximation: `*error = FLT_MAX/DBL_MAX`, the
whole table initialized to 1, then `a[0][0]` seeded with the first
growth-rate estimate; `ans = 0`. -/
def riddersInit (tr : Traits) (g0 : F) : RidState :=
  { a := updTable (fun _ _ => F.num 1) 0 0 g0
    err := F.num tr.maxVal
    ans := F.num 0
    comp := updComp (fun _ _ => false) 0 0
    trace := [] }

/-- Full run of riddersApproximation for evaluator `f`, abscissa `x` and
initial step `h`: final state after the outer loop. -/
def riddersState (tr : Traits) (f : F → F) (x h : F) : RidState :=
  outerAux tr.rate (fun i => growthRateAroundAbscissa f x (hhSeqF tr x h i)) 9 1
    (riddersInit tr (growthRateAroundAbscissa f x (hhSeqF tr x h 0)))

/-- riddersApproximation's observable result: the returned value `ans` and
the out-parameter `*error`. -/
def riddersApproximation (tr : Traits) (f : F → F) (x h : F) : F × F :=
  ((riddersState tr f x h).ans, (riddersState tr f x h).err)

/-- The continuation/rejection test of templatedApproximate:
`std::fabs(error/result) > k_maxErrorRateOnApproximation || std::isnan(error)`. -/
def relErrBad (tr : Traits) (result error : F) : Bool :=
  F.lt (F.num tr.maxErr) (F.fabs (F.div error result)) || error.isnan

/-- The composition `std::floor(std::log10 v)` on the model.  On a positive
rational it is the integer base-10 logarithm; `log10 0 = -inf` and
`floor` keeps infinities and NaN, and `log10` of a negative value is NaN. -/
def floorLog10F : F → F
  | F.num q => if 0 < q then F.num ((Int.log 10 q : ℤ) : ℚ) else
      (if q = 0 then F.inf false else F.nan)
  | F.inf s => if s then F.inf true else F.nan
  | F.nan => F.nan

/-- The call `std::pow((T)10, e)` as used by templatedApproximate: the exponent
there is always `floor(log10 |error|) + 2`, i.e. an integer (or ±inf/NaN),
so only integral exponents are given a numeric meaning. -/
def pow10F : F → F
  | F.num q => if q.den = 1 then F.num ((10 : ℚ) ^ q.num) else F.nan
  | F.inf s => if s then F.inf true else F.num 0
  | F.nan => F.nan

/-- The std::round function on a rational: to-nearest with ties away from
zero (C semantics; for nonnegative arguments this is `⌊q + 1/2⌋`). -/
def cRound (q : ℚ) : ℤ := if 0 ≤ q then ⌊q + 1/2⌋ else -⌊-q + 1/2⌋

/-- The std::round function on the scalar model. -/
def roundF : F → F
  | F.num q => F.num ((cRound q : ℤ) : ℚ)
  | F.inf s => F.inf s
  | F.nan => F.nan

/-- The adaptive step-search `do { result = ridders(...); h /= 10; }
while ((fabs(error/result) > k_max || isnan(error)) && h >= epsilon)` of
templatedApproximate.  The do-while is realized by structural recursion on
a fuel counter `n`; the loop body always runs at least once when `n ≥ 1`,
and the stability theorems below show that any fuel past the underflow
bound gives the same result, so the fuel is not an extra degree of
freedom.  The accumulator is the current `(result, error)` pair (the two
uninitialized locals of the source; they are overwritten before use
whenever `n ≥ 1`). -/
def approxLoopAux (tr : Traits) (f : F → F) (x : F) : ℕ → F → (F × F) → (F × F)
  | 0, _, re => re
  | n+1, h, _ =>
    let re := riddersApproximation tr f x h
    let h' := F.div h (F.num 10)
    if relErrBad tr re.1 re.2 && F.le (F.num tr.eps) h' then approxLoopAux tr f x n h' re
    else re

/-- templatedApproximate.  `argv` is `childAtIndex(2)->approximate(...)`
converted to a scalar (NaN when the child is complex/matrix-valued or
undefined); `f` abstracts `approximateWithArgument`, so the guard's
`functionValue` is `f argv`.  `Complex<T>::Undefined()` is the NaN
value. -/
def templatedApproximate (tr : Traits) (f : F → F) (argv : F) (fuel : ℕ) : F :=
  if argv.isnan || (f argv).isnan then F.nan
  else
    let re := approxLoopAux tr f argv fuel (F.num tr.minRate) (F.num 0, F.num 0)
    if relErrBad tr re.1 re.2 then F.nan
    else if F.lt (F.fabs re.2) (F.num tr.minPos) then re.1
    else
      let g := pow10F (F.add (floorLog10F (F.fabs re.2)) (F.num 2))
      F.mul (roundF (F.div re.1 g)) g

/-- The step size used by iteration `n` of the adaptive loop:
`k_minInitialRate / 10^n` (exact in the model, where `h /= 10` does not
round). -/
def hAt (tr : Traits) (n : ℕ) : ℚ := tr.minRate / 10 ^ n

/-- The `(result, error)` pair produced by iteration `n` of the adaptive
loop. -/
def riddersAtStep (tr : Traits) (f : F → F) (x : F) (n : ℕ) : F × F :=
  riddersApproximation tr f x (F.num (hAt tr n))

/-- The do-while continuation condition after iteration `n`: the result is
still unacceptable (or the error NaN) and the next step has not underflowed
machine epsilon. -/
def contCond (tr : Traits) (f : F → F) (x : F) (n : ℕ) : Bool :=
  relErrBad tr (riddersAtStep tr f x n).1 (riddersAtStep tr f x n).2
    && decide (tr.eps ≤ hAt tr (n+1))

/-- Modelled from the spec: the generic `ExpressionNode::polynomialDegree`
default (expression_node.cpp is not under src/).  The spec calls it the
"unknown degree" value, distinct from 0; the conventional marker is -1. -/
def ExpressionNode.polynomialDegree : Int := -1

/-- DerivativeNode::polynomialDegree, as a function of the polynomial
degrees of the three children with respect to the queried symbol. -/
def DerivativeNode.polynomialDegree (d0 d1 d2 : Int) : Int :=
  if d0 = 0 ∧ d1 = 0 ∧ d2 = 0 then 0 else ExpressionNode.polynomialDegree

/-- Modelled from the spec: `approximateWithValueForSymbol` (expression.cpp,
not under src/) evaluates child 0 with the differentiation symbol
transiently bound to the given value; per the spec the binding "is
established immediately before each growth-rate evaluation and has no
effect once that evaluation returns", so as a state transformer on the
context it returns the evaluated value and the context unchanged.
`body : Ctx → F → F` abstracts the framework's evaluation of the function
body under a context and a bound symbol value. -/
def approximateWithArgumentC {Ctx : Type} (body : Ctx → F → F) (ctx : Ctx) (x : F) :
    F × Ctx :=
  (body ctx x, ctx)

/-- growthRateAroundAbscissa with the context threaded through the two
evaluations of the function body. -/
def growthRateAroundAbscissaC {Ctx : Type} (body : Ctx → F → F) (ctx : Ctx) (x h : F) :
    F × Ctx :=
  (approximateWithArgumentC body ctx (F.add x h)).2 |> fun ctx1 =>
  (F.div (F.sub (approximateWithArgumentC body ctx (F.add x h)).1
                (approximateWithArgumentC body ctx1 (F.sub x h)).1)
         (F.mul (F.num 2) h),
   (approximateWithArgumentC body ctx1 (F.sub x h)).2)

/-- Outer loop of riddersApproximation with the context threaded through
each growth-rate evaluation (the inner loop performs no evaluation and is
shared with the pure model). -/
def outerAuxC {Ctx : Type} (tr : Traits) (body : Ctx → F → F) (x h : F) :
    ℕ → ℕ → RidState × Ctx → RidState × Ctx
  | 0, _, sc => sc
  | n+1, i, sc =>
    let gc := growthRateAroundAbscissaC body sc.2 x (hhSeqF tr x h i)
    let s2 := innerAux tr.rate i 9 1 (tr.rate * tr.rate) (seedCol gc.1 i sc.1)
    if breakCond s2 i then (s2, gc.2)
    else outerAuxC tr body x h n (i+1) (s2, gc.2)

/-- riddersApproximation with the context threaded. -/
def riddersApproximationC {Ctx : Type} (tr : Traits) (body : Ctx → F → F) (ctx : Ctx)
    (x h : F) : (F × F) × Ctx :=
  let g0 := growthRateAroundAbscissaC body ctx x (hhSeqF tr x h 0)
  let sc := outerAuxC tr body x h 9 1 (riddersInit tr g0.1, g0.2)
  ((sc.1.ans, sc.1.err), sc.2)

/-- The adaptive loop with the context threaded. -/
def approxLoopAuxC {Ctx : Type} (tr : Traits) (body : Ctx → F → F) (x : F) :
    ℕ → F → (F × F) × Ctx → (F × F) × Ctx
  | 0, _, rec' => rec'
  | n+1, h, rec' =>
    let rc := riddersApproximationC tr body rec'.2 x h
    let h' := F.div h (F.num 10)
    if relErrBad tr rc.1.1 rc.1.2 && F.le (F.num tr.eps) h' then
      approxLoopAuxC tr body x n h' rc
    else rc

/-- templatedApproximate as a state transformer on the context. -/
def templatedApproximateC {Ctx : Type} (tr : Traits) (body : Ctx → F → F) (ctx : Ctx)
    (argv : F) (fuel : ℕ) : F × Ctx :=
  if argv.isnan || (approximateWithArgumentC body ctx argv).1.isnan then (F.nan, ctx)
  else
    let rc := approxLoopAuxC tr body argv fuel (F.num tr.minRate) ((F.num 0, F.num 0), ctx)
    if relErrBad tr rc.1.1 rc.1.2 then (F.nan, rc.2)
    else if F.lt (F.fabs rc.1.2) (F.num tr.minPos) then (rc.1.1, rc.2)
    else
      let g := pow10F (F.add (floorLog10F (F.fabs rc.1.2)) (F.num 2))
      (F.mul (roundF (F.div rc.1.1 g)) g, rc.2)

attribute [local semireducible] Rat.add Rat.mul Rat.sub Rat.inv

/-- The right-hand side of the Richardson combination of line 122, with the
weight `fac = k_rateStepSize^(2j)` it has at the time entry `(j, i)` is
computed: `(a[j-1][i]*fac - a[j-1][i-1]) / (fac - 1)`. -/
def recRHS (rate : ℚ) (A : ℕ → ℕ → F) (j i : ℕ) : F :=
  F.div (F.sub (F.mul (A (j-1) i) (F.num (rate ^ (2*j)))) (A (j-1) (i-1)))
        (F.sub (F.num (rate ^ (2*j))) (F.num 1))

/-- One step of the running-minimum update of lines 126-129: keep the new
`(errt, a[j][i])` pair exactly when `errt < *error`. -/
def updPair (c p : F × F) : F × F := if F.lt p.1 c.1 then p else c

/-- Invariant: every computed cell of order at least 1 satisfies the
Richardson recurrence. -/
def tableRec (rate : ℚ) (s : RidState) : Prop :=
  ∀ j i, 1 ≤ j → s.comp j i = true → s.a j i = recRHS rate s.a j i

/-- Invariant: all computed cells lie strictly before position `(j, i)` in
program order (columns before `i`, or column `i` at an order below `j`). -/
def compBefore (s : RidState) (i j : ℕ) : Prop :=
  ∀ j' i', s.comp j' i' = true → i' < i ∨ (i' = i ∧ j' < j)

/-- Invariant: all computed cells lie in columns before `i`. -/
def compBeforeCol (s : RidState) (i : ℕ) : Prop :=
  ∀ j' i', s.comp j' i' = true → i' < i

/-- Concrete traits used to instantiate the theorems on closed inputs. -/
def tr0 : Traits :=
  { eps := 1/2, minPos := 1/4, maxVal := 1000, rate := 2, minRate := 1, maxErr := 1/1000 }

/-- A concrete evaluator: the square function (an even function, so every
central difference is 0). -/
def fsq : F → F := fun v => F.mul v v

/-- A concrete evaluator: the identity function. -/
def fid : F → F := fun v => v

/-- A concrete evaluator that is NaN everywhere. -/
def fnan : F → F := fun _ => F.nan

theorem F.lt_nan_right (x : F) : F.lt x F.nan = false := by cases x <;> rfl

theorem F.lt_nan_left (x : F) : F.lt F.nan x = false := by cases x <;> rfl

theorem F.lt_irrefl (x : F) : F.lt x x = false := by
  cases x with
  | num q => simp [F.lt]
  | inf s => cases s <;> rfl
  | nan => rfl

theorem F.sub_nan (x : F) : F.sub x F.nan = F.nan := by cases x <;> rfl

theorem F.nan_sub (x : F) : F.sub F.nan x = F.nan := by cases x <;> rfl

theorem F.nan_mul (x : F) : F.mul F.nan x = F.nan := by cases x <;> rfl

theorem F.nan_div (x : F) : F.div F.nan x = F.nan := by cases x <;> rfl

theorem F.fabs_nan : F.fabs F.nan = F.nan := rfl

/-- Negative transitivity of IEEE strict less-than: if `a` is not below `c`
but `b` is, then `a` is not below `b`. -/
theorem F.lt_trans_neg {a b c : F} (hac : F.lt a c = false) (hbc : F.lt b c = true) :
    F.lt a b = false := by
  cases c with
  | nan => rw [F.lt_nan_right] at hbc; exact absurd hbc (by simp)
  | num qc =>
    cases a with
    | nan => exact F.lt_nan_left _
    | num qa =>
      cases b with
      | nan => simp [F.lt] at hbc
      | num qb =>
        simp [F.lt] at hac hbc ⊢
        linarith
      | inf sb =>
        cases sb with
        | true => simp [F.lt] at hbc
        | false => simp [F.lt]
    | inf sa =>
      cases sa with
      | true => cases b <;> simp [F.lt]
      | false => simp [F.lt] at hac
  | inf sc =>
    cases sc with
    | false => cases b <;> simp [F.lt] at hbc
    | true =>
      cases a with
      | nan => exact F.lt_nan_left _
      | num qa => simp [F.lt] at hac
      | inf sa =>
        cases sa with
        | false => simp [F.lt] at hac
        | true => cases b <;> simp [F.lt]

theorem updTable_same (A : ℕ → ℕ → F) (j i : ℕ) (v : F) : updTable A j i v j i = v := by
  simp [updTable]

theorem updTable_ne (A : ℕ → ℕ → F) (j i : ℕ) (v : F) {j' i' : ℕ}
    (h : ¬(j' = j ∧ i' = i)) : updTable A j i v j' i' = A j' i' := by
  simp [updTable, h]

theorem updComp_same (C : ℕ → ℕ → Bool) (j i : ℕ) : updComp C j i j i = true := by
  simp [updComp]

theorem updComp_ne (C : ℕ → ℕ → Bool) (j i : ℕ) {j' i' : ℕ}
    (h : ¬(j' = j ∧ i' = i)) : updComp C j i j' i' = C j' i' := by
  simp [updComp, h]

theorem updComp_eq_or (C : ℕ → ℕ → Bool) (j i j' i' : ℕ) (h : updComp C j i j' i' = true) :
    (j' = j ∧ i' = i) ∨ C j' i' = true := by
  by_cases hc : j' = j ∧ i' = i
  · exact Or.inl hc
  · right; rwa [updComp_ne _ _ _ hc] at h

/-- The result of folding the running-minimum update is either the initial
pair or one of the folded pairs. -/
theorem foldl_updPair_mem (l : List (F × F)) (c : F × F) :
    l.foldl updPair c = c ∨ l.foldl updPair c ∈ l := by
  induction l generalizing c with
  | nil => exact Or.inl rfl
  | cons p t ih =>
    rcases ih (updPair c p) with h | h
    · rw [List.foldl_cons, h]
      unfold updPair
      split
      · exact Or.inr (List.mem_cons_self _ _)
      · exact Or.inl rfl
    · exact Or.inr (List.mem_cons_of_mem _ h)

/-- Folding the running-minimum update never increases the error component:
nothing strictly below the initial error stays strictly below the result. -/
theorem foldl_updPair_not_lt_init (l : List (F × F)) (c : F × F) {e : F}
    (he : F.lt e c.1 = false) : F.lt e (l.foldl updPair c).1 = false := by
  induction l generalizing c with
  | nil => exact he
  | cons p t ih =>
    rw [List.foldl_cons]
    apply ih
    unfold updPair
    split
    · next hlt => exact F.lt_trans_neg he hlt
    · exact he

/-- No folded pair's error is strictly below the folded minimum. -/
theorem foldl_updPair_min (l : List (F × F)) :
    ∀ (c p : F × F), p ∈ l → F.lt p.1 (l.foldl updPair c).1 = false := by
  induction l with
  | nil => intro c p hp; cases hp
  | cons q t ih =>
    intro c p hp
    rw [List.foldl_cons]
    rcases List.mem_cons.mp hp with rfl | hpt
    · apply foldl_updPair_not_lt_init
      unfold updPair
      split
      · exact F.lt_irrefl _
      · next h => exact Bool.eq_false_iff.mpr h
    · exact ih (updPair c q) p hpt

theorem innerStep_a (i j : ℕ) (fac : ℚ) (s : RidState) :
    (innerStep i j fac s).a = updTable s.a j i (cellVal fac s j i) := rfl

theorem innerStep_comp (i j : ℕ) (fac : ℚ) (s : RidState) :
    (innerStep i j fac s).comp = updComp s.comp j i := rfl

theorem innerStep_trace (i j : ℕ) (fac : ℚ) (s : RidState) :
    (innerStep i j fac s).trace = s.trace ++ [(cellErrt fac s j i, cellVal fac s j i)] := rfl

theorem innerStep_errAns (i j : ℕ) (fac : ℚ) (s : RidState) :
    ((innerStep i j fac s).err, (innerStep i j fac s).ans)
      = updPair (s.err, s.ans) (cellErrt fac s j i, cellVal fac s j i) := by
  unfold innerStep updPair
  by_cases h : F.lt (cellErrt fac s j i) s.err = true
  · simp [h]
  · simp [h]

/-- The inner loop never writes outside column `i`, nor below the order it
starts at. -/
theorem innerAux_a_frozen (rate : ℚ) (i : ℕ) :
    ∀ (n j : ℕ) (fac : ℚ) (s : RidState) (j' i' : ℕ), (i' ≠ i ∨ j' < j) →
      (innerAux rate i n j fac s).a j' i' = s.a j' i' := by
  intro n
  induction n with
  | zero => intro j fac s j' i' _; rfl
  | succ n ih =>
    intro j fac s j' i' h
    rw [innerAux, ih]
    · rw [innerStep_a]
      apply updTable_ne
      rcases h with h | h
      · exact fun hc => h hc.2
      · exact fun hc => absurd hc.1 (Nat.ne_of_lt h)
    · rcases h with h | h
      · exact Or.inl h
      · exact Or.inr (Nat.lt_succ_of_lt h)

/-- Same for the ghost computed-set. -/
theorem innerAux_comp_frozen (rate : ℚ) (i : ℕ) :
    ∀ (n j : ℕ) (fac : ℚ) (s : RidState) (j' i' : ℕ), (i' ≠ i ∨ j' < j) →
      (innerAux rate i n j fac s).comp j' i' = s.comp j' i' := by
  intro n
  induction n with
  | zero => intro j fac s j' i' _; rfl
  | succ n ih =>
    intro j fac s j' i' h
    rw [innerAux, ih]
    · rw [innerStep_comp]
      apply updComp_ne
      rcases h with h | h
      · exact fun hc => h hc.2
      · exact fun hc => absurd hc.1 (Nat.ne_of_lt h)
    · rcases h with h | h
      · exact Or.inl h
      · exact Or.inr (Nat.lt_succ_of_lt h)

/-- Exact characterization of the cells the inner loop marks computed. -/
theorem innerAux_comp_char (rate : ℚ) (i : ℕ) :
    ∀ (n j : ℕ) (fac : ℚ) (s : RidState) (j' i' : ℕ),
      (innerAux rate i n j fac s).comp j' i'
        = (s.comp j' i' || decide (i' = i ∧ j ≤ j' ∧ j' < j + n)) := by
  intro n
  induction n with
  | zero =>
    intro j fac s j' i'
    have h0 : ¬(i' = i ∧ j ≤ j' ∧ j' < j + 0) := by omega
    simp [innerAux, h0]
  | succ n ih =>
    intro j fac s j' i'
    rw [innerAux, ih, innerStep_comp]
    by_cases hc : j' = j ∧ i' = i
    · obtain ⟨hj, hi⟩ := hc
      have h1 : updComp s.comp j i j' i' = true := by rw [hj, hi]; exact updComp_same _ _ _
      have h2 : decide (i' = i ∧ j ≤ j' ∧ j' < j + (n+1)) = true :=
        decide_eq_true ⟨hi, by omega, by omega⟩
      rw [h1, h2, Bool.true_or, Bool.or_true]
    · rw [updComp_ne _ _ _ hc]
      congr 1
      by_cases hii : i' = i
      · have hjj : j' ≠ j := fun hj => hc ⟨hj, hii⟩
        rw [decide_eq_decide]
        constructor
        · rintro ⟨h1, h2, h3⟩; exact ⟨h1, by omega, by omega⟩
        · rintro ⟨h1, h2, h3⟩; exact ⟨h1, by omega, by omega⟩
      · rw [decide_eq_decide]
        constructor
        · rintro ⟨h1, h2, h3⟩; exact absurd h1 hii
        · rintro ⟨h1, h2, h3⟩; exact absurd h1 hii

/-- The inner loop maintains the running-minimum relation between
`(err, ans)` and the ghost trace. -/
theorem innerAux_foldl (rate : ℚ) (i : ℕ) (c0 : F × F) :
    ∀ (n j : ℕ) (fac : ℚ) (s : RidState),
      (s.err, s.ans) = s.trace.foldl updPair c0 →
      ((innerAux rate i n j fac s).err, (innerAux rate i n j fac s).ans)
        = (innerAux rate i n j fac s).trace.foldl updPair c0 := by
  intro n
  induction n with
  | zero => intro j fac s h; exact h
  | succ n ih =>
    intro j fac s h
    rw [innerAux]
    apply ih
    rw [innerStep_errAns, innerStep_trace, List.foldl_append, List.foldl_cons, List.foldl_nil, ← h]

theorem seedCol_err (g : F) (i : ℕ) (s : RidState) : (seedCol g i s).err = s.err := rfl

theorem seedCol_ans (g : F) (i : ℕ) (s : RidState) : (seedCol g i s).ans = s.ans := rfl

theorem seedCol_trace (g : F) (i : ℕ) (s : RidState) : (seedCol g i s).trace = s.trace := rfl

theorem seedCol_a (g : F) (i : ℕ) (s : RidState) : (seedCol g i s).a = updTable s.a 0 i g := rfl

theorem seedCol_comp (g : F) (i : ℕ) (s : RidState) :
    (seedCol g i s).comp = updComp s.comp 0 i := rfl

/-- The outer loop maintains the running-minimum relation between
`(err, ans)` and the ghost trace. -/
theorem outerAux_foldl (rate : ℚ) (grow : ℕ → F) (c0 : F × F) :
    ∀ (n i : ℕ) (s : RidState),
      (s.err, s.ans) = s.trace.foldl updPair c0 →
      ((outerAux rate grow n i s).err, (outerAux rate grow n i s).ans)
        = (outerAux rate grow n i s).trace.foldl updPair c0 := by
  intro n
  induction n with
  | zero => intro i s h; exact h
  | succ n ih =>
    intro i s h
    have h2 : ((innerAux rate i 9 1 (rate * rate) (seedCol (grow i) i s)).err,
               (innerAux rate i 9 1 (rate * rate) (seedCol (grow i) i s)).ans)
        = (innerAux rate i 9 1 (rate * rate) (seedCol (grow i) i s)).trace.foldl updPair c0 := by
      apply innerAux_foldl
      rw [seedCol_err, seedCol_ans, seedCol_trace]
      exact h
    rw [outerAux]
    split
    · exact h2
    · exact ih _ _ h2

/-- The recurrence invariant survives one inner-loop iteration and the rest
of the inner loop. -/
theorem innerAux_rec (rate : ℚ) (i : ℕ) :
    ∀ (n j : ℕ) (fac : ℚ) (s : RidState), 1 ≤ j → fac = rate ^ (2*j) →
      tableRec rate s → compBefore s i j →
      tableRec rate (innerAux rate i n j fac s)
        ∧ compBefore (innerAux rate i n j fac s) i (j+n) := by
  intro n
  induction n with
  | zero =>
    intro j fac s _ _ h1 h2
    exact ⟨h1, by simpa using h2⟩
  | succ n ih =>
    intro j fac s hj hfac h1 h2
    rw [innerAux]
    have key := ih (j+1) (rate * rate * fac) (innerStep i j fac s) (by omega)
      (by rw [hfac]; ring)
      ?_ ?_
    · refine ⟨key.1, ?_⟩
      have : j + (n + 1) = (j + 1) + n := by omega
      rw [this]
      exact key.2
    · -- tableRec survives the write of cell (j, i)
      intro j0 i0 hj0 hcomp
      rw [innerStep_comp] at hcomp
      rw [innerStep_a]
      rcases updComp_eq_or _ _ _ _ _ hcomp with ⟨rfl, rfl⟩ | hold
      · rw [updTable_same]
        unfold recRHS cellVal
        have hne : ¬(j0 - 1 = j0 ∧ (i0 : ℕ) = i0) := fun hcc => by omega
        rw [updTable_ne _ _ _ _ hne, updTable_ne _ _ _ _ (fun hcc => by omega : ¬(j0 - 1 = j0 ∧ i0 - 1 = i0))]
        · rw [hfac]
      · have hpos := h2 _ _ hold
        have hne0 : ¬(j0 = j ∧ i0 = i) := by
          rcases hpos with hlt | ⟨rfl, hlt⟩
          · exact fun hcc => by omega
          · exact fun hcc => by omega
        rw [updTable_ne _ _ _ _ hne0]
        have hr := h1 _ _ hj0 hold
        rw [hr]
        unfold recRHS
        have hne1 : ¬(j0 - 1 = j ∧ i0 = i) := by
          rcases hpos with hlt | ⟨rfl, hlt⟩
          · exact fun hcc => by omega
          · exact fun hcc => by omega
        have hne2 : ¬(j0 - 1 = j ∧ i0 - 1 = i) := by
          rcases hpos with hlt | ⟨rfl, hlt⟩
          · exact fun hcc => by omega
          · exact fun hcc => by omega
        rw [updTable_ne _ _ _ _ hne1, updTable_ne _ _ _ _ hne2]
    · -- compBefore advances to order j+1
      intro j0 i0 hcomp
      rw [innerStep_comp] at hcomp
      rcases updComp_eq_or _ _ _ _ _ hcomp with ⟨rfl, rfl⟩ | hold
      · right; exact ⟨rfl, by omega⟩
      · rcases h2 _ _ hold with hlt | ⟨rfl, hlt⟩
        · exact Or.inl hlt
        · exact Or.inr ⟨rfl, by omega⟩

/-- The recurrence invariant survives the whole outer loop. -/
theorem outerAux_rec (rate : ℚ) (grow : ℕ → F) :
    ∀ (n i : ℕ) (s : RidState), 1 ≤ i → tableRec rate s → compBeforeCol s i →
      tableRec rate (outerAux rate grow n i s) := by
  intro n
  induction n with
  | zero => intro i s _ h1 _; exact h1
  | succ n ih =>
    intro i s hi h1 h2
    have hseed1 : tableRec rate (seedCol (grow i) i s) := by
      intro j0 i0 hj0 hcomp
      rw [seedCol_comp] at hcomp
      rcases updComp_eq_or _ _ _ _ _ hcomp with ⟨rfl, rfl⟩ | hold
      · omega
      · have hlt := h2 _ _ hold
        rw [seedCol_a]
        have hne0 : ¬(j0 = 0 ∧ i0 = i) := fun hcc => by omega
        rw [updTable_ne _ _ _ _ hne0]
        rw [h1 _ _ hj0 hold]
        unfold recRHS
        rw [updTable_ne _ _ _ _ (fun hcc => by omega : ¬(j0 - 1 = 0 ∧ i0 = i)),
            updTable_ne _ _ _ _ (fun hcc => by omega : ¬(j0 - 1 = 0 ∧ i0 - 1 = i))]
    have hseed2 : compBefore (seedCol (grow i) i s) i 1 := by
      intro j0 i0 hcomp
      rw [seedCol_comp] at hcomp
      rcases updComp_eq_or _ _ _ _ _ hcomp with ⟨rfl, rfl⟩ | hold
      · exact Or.inr ⟨rfl, by omega⟩
      · exact Or.inl (h2 _ _ hold)
    have key := innerAux_rec rate i 9 1 (rate * rate) (seedCol (grow i) i s)
      (by omega) (by ring) hseed1 hseed2
    rw [outerAux]
    split
    · exact key.1
    · apply ih (i+1) _ (by omega) key.1
      intro j0 i0 hcomp
      rcases key.2 _ _ hcomp with hlt | ⟨rfl, _⟩
      · omega
      · omega

theorem updComp_mono (C : ℕ → ℕ → Bool) (j i j' i' : ℕ) (h : C j' i' = true) :
    updComp C j i j' i' = true := by
  by_cases hc : j' = j ∧ i' = i
  · obtain ⟨rfl, rfl⟩ := hc; exact updComp_same _ _ _
  · rwa [updComp_ne _ _ _ hc]

theorem innerAux_comp_mono (rate : ℚ) (i n j : ℕ) (fac : ℚ) (s : RidState) (j' i' : ℕ)
    (h : s.comp j' i' = true) : (innerAux rate i n j fac s).comp j' i' = true := by
  rw [innerAux_comp_char, h, Bool.true_or]

theorem outerAux_comp_mono (rate : ℚ) (grow : ℕ → F) :
    ∀ (n i : ℕ) (s : RidState) (j' i' : ℕ), s.comp j' i' = true →
      (outerAux rate grow n i s).comp j' i' = true := by
  intro n
  induction n with
  | zero => intro i s j' i' h; exact h
  | succ n ih =>
    intro i s j' i' h
    have h2 : (innerAux rate i 9 1 (rate * rate) (seedCol (grow i) i s)).comp j' i' = true := by
      apply innerAux_comp_mono
      rw [seedCol_comp]
      exact updComp_mono _ _ _ _ _ h
    rw [outerAux]
    split
    · exact h2
    · exact ih _ _ _ _ h2

/-- Column 0 above the seed cell is never touched: those cells keep the
initialized value 1 and are never marked computed. -/
theorem outerAux_col0 (rate : ℚ) (grow : ℕ → F) :
    ∀ (n i : ℕ) (s : RidState), 1 ≤ i →
      (∀ j', 1 ≤ j' → s.a j' 0 = F.num 1 ∧ s.comp j' 0 = false) →
      ∀ j', 1 ≤ j' → (outerAux rate grow n i s).a j' 0 = F.num 1
        ∧ (outerAux rate grow n i s).comp j' 0 = false := by
  intro n
  induction n with
  | zero => intro i s _ hs j' hj'; exact hs j' hj'
  | succ n ih =>
    intro i s hi hs j' hj'
    have hcol : ∀ j0, 1 ≤ j0 →
        (innerAux rate i 9 1 (rate * rate) (seedCol (grow i) i s)).a j0 0 = F.num 1
        ∧ (innerAux rate i 9 1 (rate * rate) (seedCol (grow i) i s)).comp j0 0 = false := by
      intro j0 hj0
      have hne : (0 : ℕ) ≠ i := fun hc => by omega
      rw [innerAux_a_frozen rate i 9 1 _ _ _ _ (Or.inl hne),
          innerAux_comp_frozen rate i 9 1 _ _ _ _ (Or.inl hne),
          seedCol_a, seedCol_comp,
          updTable_ne _ _ _ _ (fun hc => by omega : ¬(j0 = 0 ∧ (0:ℕ) = i)),
          updComp_ne _ _ _ (fun hc => by omega : ¬(j0 = 0 ∧ (0:ℕ) = i))]
      exact hs j0 hj0
    rw [outerAux]
    split
    · exact hcol j' hj'
    · exact ih (i+1) _ (by omega) hcol j' hj'

/-- In every seeded generation column, the inner loop computes all orders
`j = 1..9` (not only `j ≤ i`). -/
theorem outerAux_fullcols (rate : ℚ) (grow : ℕ → F) :
    ∀ (n i : ℕ) (s : RidState), 1 ≤ i →
      (∀ i', 1 ≤ i' → s.comp 0 i' = true →
        ∀ j', 1 ≤ j' → j' ≤ 9 → s.comp j' i' = true) →
      (∀ i'', i ≤ i'' → s.comp 0 i'' = false) →
      ∀ i', 1 ≤ i' → (outerAux rate grow n i s).comp 0 i' = true →
        ∀ j', 1 ≤ j' → j' ≤ 9 → (outerAux rate grow n i s).comp j' i' = true := by
  intro n
  induction n with
  | zero => intro i s _ hR _; exact hR
  | succ n ih =>
    intro i s hi hR hfut
    have hR2 : ∀ i', 1 ≤ i' →
        (innerAux rate i 9 1 (rate * rate) (seedCol (grow i) i s)).comp 0 i' = true →
        ∀ j', 1 ≤ j' → j' ≤ 9 →
          (innerAux rate i 9 1 (rate * rate) (seedCol (grow i) i s)).comp j' i' = true := by
      intro i' hi' hc0 j' hj1 hj9
      rw [innerAux_comp_char, Bool.or_eq_true]
      by_cases hii : i' = i
      · exact Or.inr (decide_eq_true ⟨hii, hj1, by omega⟩)
      · left
        rw [innerAux_comp_char, Bool.or_eq_true] at hc0
        rcases hc0 with hc0 | hdec
        · rw [seedCol_comp] at hc0 ⊢
          rw [updComp_ne _ _ _ (fun hc => hii hc.2)] at hc0
          exact updComp_mono _ _ _ _ _ (hR i' hi' hc0 j' hj1 hj9)
        · exact absurd (of_decide_eq_true hdec).1 hii
    have hfut2 : ∀ i'', i + 1 ≤ i'' →
        (innerAux rate i 9 1 (rate * rate) (seedCol (grow i) i s)).comp 0 i'' = false := by
      intro i'' hi''
      rw [innerAux_comp_char]
      have h1 : ¬(i'' = i ∧ 1 ≤ 0 ∧ (0:ℕ) < 1 + 9) := fun hc => by omega
      rw [seedCol_comp, updComp_ne _ _ _ (fun hc => by omega : ¬((0:ℕ) = 0 ∧ i'' = i))]
      rw [hfut i'' (by omega), decide_eq_false h1]
      rfl
    rw [outerAux]
    split
    · exact hR2
    · exact ih (i+1) _ (by omega) hR2 hfut2

/-- Every run of the outer loop seeds and fully processes its first
generation column. -/
theorem outerAux_first_seeded (rate : ℚ) (grow : ℕ → F) (n i : ℕ) (s : RidState) :
    (outerAux rate grow (n+1) i s).comp 0 i = true := by
  have h2 : (innerAux rate i 9 1 (rate * rate) (seedCol (grow i) i s)).comp 0 i = true := by
    apply innerAux_comp_mono
    rw [seedCol_comp]
    exact updComp_same _ _ _
  rw [outerAux]
  split
  · exact h2
  · exact outerAux_comp_mono _ _ _ _ _ _ _ h2

theorem riddersInit_a (tr : Traits) (g0 : F) :
    (riddersInit tr g0).a = updTable (fun _ _ => F.num 1) 0 0 g0 := rfl

theorem riddersInit_comp (tr : Traits) (g0 : F) :
    (riddersInit tr g0).comp = updComp (fun _ _ => false) 0 0 := rfl

theorem riddersInit_err (tr : Traits) (g0 : F) : (riddersInit tr g0).err = F.num tr.maxVal := rfl

theorem riddersInit_ans (tr : Traits) (g0 : F) : (riddersInit tr g0).ans = F.num 0 := rfl

theorem riddersInit_trace (tr : Traits) (g0 : F) : (riddersInit tr g0).trace = [] := rfl

/-- C2: every extrapolation-table entry computed for an order `j ≥ 1`
satisfies the Richardson recurrence
`a[j][i] = (a[j-1][i]*fac - a[j-1][i-1]) / (fac - 1)` with weight
`fac = k_rateStepSize^(2j)` as it stands when the entry is computed. -/
theorem c2_richardson_recurrence (tr : Traits) (f : F → F) (x h : F) (j i : ℕ)
    (hj : 1 ≤ j) (hc : (riddersState tr f x h).comp j i = true) :
    (riddersState tr f x h).a j i = recRHS tr.rate (riddersState tr f x h).a j i := by
  have hinit1 : tableRec tr.rate
      (riddersInit tr (growthRateAroundAbscissa f x (hhSeqF tr x h 0))) := by
    intro j0 i0 hj0 hcomp
    rw [riddersInit_comp] at hcomp
    rcases updComp_eq_or _ _ _ _ _ hcomp with ⟨rfl, rfl⟩ | hold
    · omega
    · simp at hold
  have hinit2 : compBeforeCol
      (riddersInit tr (growthRateAroundAbscissa f x (hhSeqF tr x h 0))) 1 := by
    intro j0 i0 hcomp
    rw [riddersInit_comp] at hcomp
    rcases updComp_eq_or _ _ _ _ _ hcomp with ⟨rfl, rfl⟩ | hold
    · omega
    · simp at hold
  exact outerAux_rec tr.rate _ 9 1 _ (by omega) hinit1 hinit2 j i hj hc

/-- Closed instance of c2_richardson_recurrence: for the square function at
`x = 0`, `h = 1`, the computed cell `(1, 1)` satisfies the recurrence. -/
theorem c2_richardson_recurrence_witness :
    1 ≤ 1 ∧ (riddersState tr0 fsq (F.num 0) (F.num 1)).comp 1 1 = true ∧
    (riddersState tr0 fsq (F.num 0) (F.num 1)).a 1 1
      = recRHS tr0.rate (riddersState tr0 fsq (F.num 0) (F.num 1)).a 1 1 :=
  ⟨by decide, by decide,
    c2_richardson_recurrence tr0 fsq (F.num 0) (F.num 1) 1 1 (by decide) (by decide)⟩

/-- C3: `*error` and the returned answer realize the running minimum of the
discrepancies `errt` over all computed `(j, i)` pairs: the final pair is the
fold of the strict-decrease update over the ghost trace, no considered
discrepancy is strictly below the final error, and the final pair is either
an entry of the trace or the initial `(FLT_MAX/DBL_MAX, 0)`. -/
theorem c3_running_minimum (tr : Traits) (f : F → F) (x h : F) :
    (((riddersState tr f x h).err, (riddersState tr f x h).ans)
      = (riddersState tr f x h).trace.foldl updPair (F.num tr.maxVal, F.num 0))
    ∧ (∀ p ∈ (riddersState tr f x h).trace, F.lt p.1 (riddersState tr f x h).err = false)
    ∧ (((riddersState tr f x h).err, (riddersState tr f x h).ans)
         = (F.num tr.maxVal, F.num 0)
       ∨ ((riddersState tr f x h).err, (riddersState tr f x h).ans)
           ∈ (riddersState tr f x h).trace) := by
  have h1 : (((riddersState tr f x h).err, (riddersState tr f x h).ans)
      = (riddersState tr f x h).trace.foldl updPair (F.num tr.maxVal, F.num 0)) := by
    unfold riddersState
    exact outerAux_foldl _ _ _ 9 1 _ rfl
  refine ⟨h1, ?_, ?_⟩
  · intro p hp
    have := foldl_updPair_min (riddersState tr f x h).trace (F.num tr.maxVal, F.num 0) p hp
    rw [← h1] at this
    exact this
  · rcases foldl_updPair_mem (riddersState tr f x h).trace (F.num tr.maxVal, F.num 0) with
      hm | hm
    · left; rw [h1, hm]
    · right; rw [h1]; exact hm

/-- Closed instance of c3_running_minimum at a concrete run. -/
theorem c3_running_minimum_witness :
    (((riddersState tr0 fsq (F.num 0) (F.num 1)).err,
      (riddersState tr0 fsq (F.num 0) (F.num 1)).ans)
      = (riddersState tr0 fsq (F.num 0) (F.num 1)).trace.foldl updPair
          (F.num tr0.maxVal, F.num 0))
    ∧ (∀ p ∈ (riddersState tr0 fsq (F.num 0) (F.num 1)).trace,
        F.lt p.1 (riddersState tr0 fsq (F.num 0) (F.num 1)).err = false)
    ∧ (((riddersState tr0 fsq (F.num 0) (F.num 1)).err,
        (riddersState tr0 fsq (F.num 0) (F.num 1)).ans)
         = (F.num tr0.maxVal, F.num 0)
       ∨ ((riddersState tr0 fsq (F.num 0) (F.num 1)).err,
          (riddersState tr0 fsq (F.num 0) (F.num 1)).ans)
           ∈ (riddersState tr0 fsq (F.num 0) (F.num 1)).trace) :=
  c3_running_minimum tr0 fsq (F.num 0) (F.num 1)

/-- C1 counterexample: for the square function at `x = 0`, `h = 1`
(with `k_rateStepSize = 2`), the above-diagonal cell `(j, i) = (2, 1)` is
computed by the inner loop and does not keep its initialized value 1:
it holds `(a[1][1]*2^4 - a[1][0]) / (2^4 - 1) = -1/15`. -/
theorem c1_counterexample :
    (riddersState tr0 fsq (F.num 0) (F.num 1)).comp 2 1 = true
    ∧ (riddersState tr0 fsq (F.num 0) (F.num 1)).a 2 1 = F.num (-1/15)
    ∧ (riddersState tr0 fsq (F.num 0) (F.num 1)).a 2 1 ≠ F.num 1 := by
  refine ⟨by decide, by decide, by decide⟩

/-- C1 amended: the inner loop runs the orders `j = 1..9` for every
processed generation `i`, so cells above the diagonal are overwritten too;
only column 0 (rows `j ≥ 1`) keeps the initialized value 1 and is never
written.  In particular the very first generation column is always
processed at all orders `1..9`. -/
theorem c1_amended_full_orders (tr : Traits) (f : F → F) (x h : F) :
    (∀ j, 1 ≤ j → (riddersState tr f x h).a j 0 = F.num 1
      ∧ (riddersState tr f x h).comp j 0 = false)
    ∧ (∀ i, 1 ≤ i → (riddersState tr f x h).comp 0 i = true →
        ∀ j, 1 ≤ j → j ≤ 9 → (riddersState tr f x h).comp j i = true)
    ∧ (∀ j, 1 ≤ j → j ≤ 9 → (riddersState tr f x h).comp j 1 = true) := by
  have hinitc : ∀ j' i', (riddersInit tr
      (growthRateAroundAbscissa f x (hhSeqF tr x h 0))).comp j' i' = true →
      j' = 0 ∧ i' = 0 := by
    intro j' i' hcomp
    rw [riddersInit_comp] at hcomp
    rcases updComp_eq_or _ _ _ _ _ hcomp with h | h
    · exact h
    · simp at h
  have hcol2 : ∀ i, 1 ≤ i → (riddersState tr f x h).comp 0 i = true →
      ∀ j, 1 ≤ j → j ≤ 9 → (riddersState tr f x h).comp j i = true := by
    unfold riddersState
    apply outerAux_fullcols _ _ 9 1 _ (by omega)
    · intro i' hi' hc0
      exact absurd (hinitc _ _ hc0).2 (by omega)
    · intro i'' hi''
      by_cases hcc : (riddersInit tr
          (growthRateAroundAbscissa f x (hhSeqF tr x h 0))).comp 0 i'' = true
      · exact absurd (hinitc _ _ hcc).2 (by omega)
      · exact Bool.eq_false_iff.mpr hcc
  refine ⟨?_, hcol2, ?_⟩
  · unfold riddersState
    apply outerAux_col0 _ _ 9 1 _ (by omega)
    intro j' hj'
    constructor
    · rw [riddersInit_a, updTable_ne _ _ _ _ (fun hc => by omega : ¬(j' = 0 ∧ (0:ℕ) = 0))]
    · by_cases hcc : (riddersInit tr
          (growthRateAroundAbscissa f x (hhSeqF tr x h 0))).comp j' 0 = true
      · exact absurd (hinitc _ _ hcc).1 (by omega)
      · exact Bool.eq_false_iff.mpr hcc
  · intro j hj1 hj9
    have hseed : (riddersState tr f x h).comp 0 1 = true := by
      unfold riddersState
      exact outerAux_first_seeded _ _ 8 1 _
    exact hcol2 1 (by omega) hseed j hj1 hj9

theorem cellVal_nan (fac : ℚ) (s : RidState) (j i : ℕ) (h : s.a (j-1) i = F.nan) :
    cellVal fac s j i = F.nan := by
  unfold cellVal
  rw [h, F.nan_mul, F.nan_sub, F.nan_div]

theorem cellErrt_nan (fac : ℚ) (s : RidState) (j i : ℕ) (h : s.a (j-1) i = F.nan) :
    cellErrt fac s j i = F.nan := by
  unfold cellErrt
  rw [cellVal_nan fac s j i h, F.nan_sub, F.nan_sub, F.fabs_nan, F.lt_nan_left, if_neg]
  simp

/-- If the seed of the current column is NaN, the whole inner loop computes
NaN cells, every discrepancy is NaN, and neither `*error` nor `ans` is ever
updated. -/
theorem innerAux_nan (rate : ℚ) (i : ℕ) :
    ∀ (n j : ℕ) (fac : ℚ) (s : RidState), 1 ≤ j → s.a (j-1) i = F.nan →
      (innerAux rate i n j fac s).err = s.err
      ∧ (innerAux rate i n j fac s).ans = s.ans
      ∧ (∀ p ∈ (innerAux rate i n j fac s).trace, p ∈ s.trace ∨ p.1 = F.nan) := by
  intro n
  induction n with
  | zero => intro j fac s _ _; exact ⟨rfl, rfl, fun p hp => Or.inl hp⟩
  | succ n ih =>
    intro j fac s hj hnan
    rw [innerAux]
    have hv := cellVal_nan fac s j i hnan
    have he := cellErrt_nan fac s j i hnan
    have hstep_err : (innerStep i j fac s).err = s.err := by
      unfold innerStep
      rw [he, F.lt_nan_left]
      simp
    have hstep_ans : (innerStep i j fac s).ans = s.ans := by
      unfold innerStep
      rw [he, F.lt_nan_left]
      simp
    have hstep_a : (innerStep i j fac s).a ((j+1)-1) i = F.nan := by
      rw [innerStep_a]
      have : (j+1)-1 = j := by omega
      rw [this, updTable_same, hv]
    have key := ih (j+1) (rate * rate * fac) (innerStep i j fac s) (by omega) hstep_a
    refine ⟨by rw [key.1, hstep_err], by rw [key.2.1, hstep_ans], ?_⟩
    intro p hp
    rcases key.2.2 p hp with hmem | hnanp
    · rw [innerStep_trace] at hmem
      rcases List.mem_append.mp hmem with hmem | hmem
      · exact Or.inl hmem
      · right
        rcases List.mem_singleton.mp hmem with rfl
        exact he
    · exact Or.inr hnanp

/-- If every growth-rate estimate is NaN, the outer loop leaves `*error`
and `ans` untouched and every trace discrepancy is NaN. -/
theorem outerAux_nan (rate : ℚ) (grow : ℕ → F) (hg : ∀ i', grow i' = F.nan) :
    ∀ (n i : ℕ) (s : RidState), 1 ≤ i →
      (outerAux rate grow n i s).err = s.err
      ∧ (outerAux rate grow n i s).ans = s.ans
      ∧ (∀ p ∈ (outerAux rate grow n i s).trace, p ∈ s.trace ∨ p.1 = F.nan) := by
  intro n
  induction n with
  | zero => intro i s _; exact ⟨rfl, rfl, fun p hp => Or.inl hp⟩
  | succ n ih =>
    intro i s hi
    have hseed : (seedCol (grow i) i s).a (1-1) i = F.nan := by
      rw [seedCol_a]
      have : (1:ℕ)-1 = 0 := rfl
      rw [this, updTable_same, hg]
    have hkey := innerAux_nan rate i 9 1 (rate * rate) (seedCol (grow i) i s) (by omega) hseed
    rw [outerAux]
    split
    · refine ⟨by rw [hkey.1, seedCol_err], by rw [hkey.2.1, seedCol_ans], ?_⟩
      intro p hp
      rcases hkey.2.2 p hp with hmem | hnanp
      · rw [seedCol_trace] at hmem; exact Or.inl hmem
      · exact Or.inr hnanp
    · have hrest := ih (i+1) (innerAux rate i 9 1 (rate * rate) (seedCol (grow i) i s)) (by omega)
      refine ⟨by rw [hrest.1, hkey.1, seedCol_err],
              by rw [hrest.2.1, hkey.2.1, seedCol_ans], ?_⟩
      intro p hp
      rcases hrest.2.2 p hp with hmem | hnanp
      · rcases hkey.2.2 p hmem with hmem2 | hnanp2
        · rw [seedCol_trace] at hmem2; exact Or.inl hmem2
        · exact Or.inr hnanp2
      · exact Or.inr hnanp

/-- C10: if every evaluation of the expression yields NaN, every
growth-rate estimate and every discrepancy `errt` is NaN, the guarded
update never fires, and riddersApproximation returns `ans = 0` with
`*error` still holding the initial FLT_MAX/DBL_MAX — a non-NaN value — so
the caller's rejection is triggered by the relative-error threshold test
(`fabs(error/result) = |MAX/0| = +inf > k_max`), not by `isnan(error)`. -/
theorem c10_nan_growth (tr : Traits) (f : F → F) (x h : F)
    (hf : ∀ v, f v = F.nan) (hmax : 0 < tr.maxVal) :
    riddersApproximation tr f x h = (F.num 0, F.num tr.maxVal)
    ∧ (∀ p ∈ (riddersState tr f x h).trace, p.1 = F.nan)
    ∧ (riddersState tr f x h).err.isnan = false
    ∧ relErrBad tr (F.num 0) (F.num tr.maxVal) = true
    ∧ F.isnan (F.num tr.maxVal) = false := by
  have hgrow : ∀ i', growthRateAroundAbscissa f x (hhSeqF tr x h i') = F.nan := by
    intro i'
    unfold growthRateAroundAbscissa
    rw [hf, hf, F.nan_sub, F.nan_div]
  have hkey := outerAux_nan tr.rate _ hgrow 9 1
    (riddersInit tr (growthRateAroundAbscissa f x (hhSeqF tr x h 0))) (by omega)
  have hans : (riddersState tr f x h).ans = F.num 0 := by
    unfold riddersState
    rw [hkey.2.1, riddersInit_ans]
  have herr : (riddersState tr f x h).err = F.num tr.maxVal := by
    unfold riddersState
    rw [hkey.1, riddersInit_err]
  have hbad : relErrBad tr (F.num 0) (F.num tr.maxVal) = true := by
    unfold relErrBad
    have hd : F.div (F.num tr.maxVal) (F.num 0) = F.inf true := by
      simp [F.div, F.qsign, ne_of_gt hmax, hmax]
    rw [hd]
    rfl
  refine ⟨?_, ?_, ?_, hbad, rfl⟩
  · unfold riddersApproximation
    rw [hans, herr]
  · intro p hp
    have hp2 : p ∈ (outerAux tr.rate
        (fun i' => growthRateAroundAbscissa f x (hhSeqF tr x h i')) 9 1
        (riddersInit tr (growthRateAroundAbscissa f x (hhSeqF tr x h 0)))).trace := hp
    rcases hkey.2.2 p hp2 with hmem | hnanp
    · rw [riddersInit_trace] at hmem
      cases hmem
    · exact hnanp
  · rw [herr]
    rfl

theorem F.div_num (a b : ℚ) (hb : b ≠ 0) : F.div (F.num a) (F.num b) = F.num (a / b) := by
  simp [F.div, hb]

theorem F.le_num (a b : ℚ) : F.le (F.num a) (F.num b) = decide (a ≤ b) := rfl

theorem F.lt_num (a b : ℚ) : F.lt (F.num a) (F.num b) = decide (a < b) := rfl

theorem F.fabs_num (q : ℚ) : F.fabs (F.num q) = F.num |q| := rfl

theorem F.add_num (a b : ℚ) : F.add (F.num a) (F.num b) = F.num (a + b) := rfl

theorem F.mul_num (a b : ℚ) : F.mul (F.num a) (F.num b) = F.num (a * b) := rfl

theorem hAt_succ (tr : Traits) (n : ℕ) : hAt tr n / 10 = hAt tr (n+1) := by
  unfold hAt
  rw [div_div, ← pow_succ]

theorem hAt_zero (tr : Traits) : hAt tr 0 = tr.minRate := by
  unfold hAt
  simp

/-- One unfolding of the adaptive do-while loop at the step of iteration
`n0`: run riddersApproximation, then continue exactly under `contCond`. -/
theorem approxLoopAux_succ (tr : Traits) (f : F → F) (x : F) (m n0 : ℕ) (re0 : F × F) :
    approxLoopAux tr f x (m+1) (F.num (hAt tr n0)) re0
      = if contCond tr f x n0 = true
        then approxLoopAux tr f x m (F.num (hAt tr (n0+1))) (riddersAtStep tr f x n0)
        else riddersAtStep tr f x n0 := by
  rw [approxLoopAux]
  have hdiv : F.div (F.num (hAt tr n0)) (F.num 10) = F.num (hAt tr (n0+1)) := by
    rw [F.div_num _ _ (by norm_num), hAt_succ]
  rw [hdiv]
  rfl

/-- The adaptive loop is a least-`n` search: if `n` is the first iteration
whose continuation condition fails and the fuel covers it, the loop result
is the riddersApproximation output of iteration `n`. -/
theorem approxLoopAux_eq (tr : Traits) (f : F → F) (x : F) :
    ∀ (fuel n0 n : ℕ) (re0 : F × F), n0 ≤ n → n - n0 < fuel →
      contCond tr f x n = false →
      (∀ k, n0 ≤ k → k < n → contCond tr f x k = true) →
      approxLoopAux tr f x fuel (F.num (hAt tr n0)) re0 = riddersAtStep tr f x n := by
  intro fuel
  induction fuel with
  | zero => intro n0 n re0 h1 h2 _ _; omega
  | succ m ih =>
    intro n0 n re0 h1 h2 hstop hall
    rw [approxLoopAux_succ]
    by_cases hn : n0 = n
    · subst hn
      rw [hstop]
      simp
    · have hcont : contCond tr f x n0 = true := hall n0 (le_refl _) (by omega)
      rw [hcont, if_pos rfl]
      exact ih (n0+1) n _ (by omega) (by omega) hstop (fun k hk1 hk2 => hall k (by omega) hk2)

/-- One unfolding of the adaptive loop at an arbitrary numeric step. -/
theorem approxLoopAux_succ_q (tr : Traits) (f : F → F) (x : F) (m : ℕ) (q : ℚ) (re0 : F × F) :
    approxLoopAux tr f x (m+1) (F.num q) re0
      = if (relErrBad tr (riddersApproximation tr f x (F.num q)).1
              (riddersApproximation tr f x (F.num q)).2
            && decide (tr.eps ≤ q/10)) = true
        then approxLoopAux tr f x m (F.num (q/10)) (riddersApproximation tr f x (F.num q))
        else riddersApproximation tr f x (F.num q) := by
  rw [approxLoopAux]
  rw [F.div_num _ _ (by norm_num)]
  rfl

/-- Once the step is below `epsilon * 10^m`, at most `m+1` further
iterations can run: any extra fuel is unused. -/
theorem approxLoopAux_stable (tr : Traits) (f : F → F) (x : F) (heps : 0 < tr.eps) :
    ∀ (m k : ℕ) (q : ℚ) (re0 : F × F), q < tr.eps * 10 ^ m →
      approxLoopAux tr f x (m+1+k) (F.num q) re0 = approxLoopAux tr f x (m+1) (F.num q) re0 := by
  intro m
  induction m with
  | zero =>
    intro k q re0 hq
    rw [pow_zero, mul_one] at hq
    have hq10 : ¬(tr.eps ≤ q / 10) := by
      rw [not_le, div_lt_iff₀ (by norm_num : (0:ℚ) < 10)]
      nlinarith
    have hcond : ∀ b : Bool, (b && decide (tr.eps ≤ q/10)) = false := by
      intro b
      rw [decide_eq_false hq10, Bool.and_false]
    cases k with
    | zero => rfl
    | succ k =>
      have e0 : 0 + 1 + (k + 1) = (k + 1) + 1 := by omega
      rw [e0, approxLoopAux_succ_q, hcond]
      conv_rhs => rw [approxLoopAux_succ_q]
      rw [hcond]
      simp
  | succ m ih =>
    intro k q re0 hq
    have hq10 : q / 10 < tr.eps * 10 ^ m := by
      rw [div_lt_iff₀ (by norm_num : (0:ℚ) < 10)]
      calc q < tr.eps * 10 ^ (m+1) := hq
        _ = tr.eps * 10 ^ m * 10 := by ring
    have e1 : m + 1 + 1 + k = (m + 1 + k) + 1 := by omega
    rw [e1, approxLoopAux_succ_q, approxLoopAux_succ_q]
    by_cases hc : (relErrBad tr (riddersApproximation tr f x (F.num q)).1
        (riddersApproximation tr f x (F.num q)).2 && decide (tr.eps ≤ q/10)) = true
    · rw [if_pos hc, if_pos hc]
      exact ih k (q/10) _ hq10
    · rw [if_neg hc, if_neg hc]

/-- C6: the adaptive step-search do-while loop always terminates, for every
evaluator (including one that is NaN everywhere) and abscissa: once `m` is
large enough that `k_minInitialRate < epsilon * 10^m`, fuel `m+1` already
suffices — any further fuel leaves both the loop result and
templatedApproximate unchanged, because `h` is divided by 10 each iteration
and the `h >= epsilon` conjunct fails after at most `m+1` iterations. -/
theorem c6_loop_terminates (tr : Traits) (f : F → F) (x : F) (m k : ℕ) (re0 : F × F)
    (heps : 0 < tr.eps) (hm : tr.minRate < tr.eps * 10 ^ m) :
    approxLoopAux tr f x (m+1+k) (F.num tr.minRate) re0
      = approxLoopAux tr f x (m+1) (F.num tr.minRate) re0
    ∧ templatedApproximate tr f x (m+1+k) = templatedApproximate tr f x (m+1) := by
  have hstab := approxLoopAux_stable tr f x heps m k tr.minRate
  refine ⟨hstab re0 hm, ?_⟩
  unfold templatedApproximate
  rw [hstab (F.num 0, F.num 0) hm]

/-- Closed instance of c6_loop_terminates with an everywhere-NaN
evaluator. -/
theorem c6_loop_terminates_witness :
    0 < tr0.eps ∧ tr0.minRate < tr0.eps * 10 ^ 1 ∧
    (approxLoopAux tr0 fnan (F.num 0) (1+1+1) (F.num tr0.minRate) (F.num 0, F.num 0)
      = approxLoopAux tr0 fnan (F.num 0) (1+1) (F.num tr0.minRate) (F.num 0, F.num 0)
    ∧ templatedApproximate tr0 fnan (F.num 0) (1+1+1)
        = templatedApproximate tr0 fnan (F.num 0) (1+1)) :=
  ⟨by decide, by decide,
    c6_loop_terminates tr0 fnan (F.num 0) 1 1 (F.num 0, F.num 0) (by decide) (by decide)⟩

/-- C4: the adaptive search starts at `h = k_minInitialRate`, runs
riddersApproximation and divides `h` by 10 each iteration, and continues
exactly while the relative error is unacceptable (or NaN) and the next step
has not fallen below machine epsilon; the loop's result is the
riddersApproximation output of the first iteration whose continuation
condition fails, and if that exit pair still has an unacceptable or NaN
relative error, templatedApproximate returns the NaN (undefined) value. -/
theorem c4_adaptive_search (tr : Traits) (f : F → F) (x : F) (m fuel : ℕ)
    (heps : 0 < tr.eps) (hm : tr.minRate < tr.eps * 10 ^ m) (hfuel : m < fuel) :
    ∃ n, contCond tr f x n = false
      ∧ (∀ k, k < n → contCond tr f x k = true)
      ∧ approxLoopAux tr f x fuel (F.num tr.minRate) (F.num 0, F.num 0)
          = riddersAtStep tr f x n
      ∧ (relErrBad tr (riddersAtStep tr f x n).1 (riddersAtStep tr f x n).2 = true →
          templatedApproximate tr f x fuel = F.nan) := by
  have hstop : contCond tr f x m = false := by
    have hlt : hAt tr (m+1) < tr.eps := by
      unfold hAt
      rw [div_lt_iff₀ (by positivity : (0:ℚ) < 10 ^ (m+1))]
      calc tr.minRate < tr.eps * 10 ^ m := hm
        _ ≤ tr.eps * 10 ^ (m+1) := by
            apply mul_le_mul_of_nonneg_left _ (le_of_lt heps)
            apply pow_le_pow_right₀ (by norm_num)
            omega
    unfold contCond
    rw [decide_eq_false (not_le_of_lt hlt), Bool.and_false]
  have hex : ∃ n, contCond tr f x n = false := ⟨m, hstop⟩
  classical
  let n := Nat.find hex
  have hn : contCond tr f x n = false := Nat.find_spec hex
  have hnm : n ≤ m := Nat.find_min' hex hstop
  have hall : ∀ k, k < n → contCond tr f x k = true := by
    intro k hk
    have := Nat.find_min hex hk
    cases hb : contCond tr f x k
    · exact absurd hb this
    · rfl
  refine ⟨n, hn, hall, ?_, ?_⟩
  · have h0 : F.num tr.minRate = F.num (hAt tr 0) := by rw [hAt_zero]
    rw [h0]
    exact approxLoopAux_eq tr f x fuel 0 n _ (by omega) (by omega) hn
      (fun k _ hk2 => hall k hk2)
  · intro hbad
    unfold templatedApproximate
    by_cases hg : (x.isnan || (f x).isnan) = true
    · rw [if_pos hg]
    · rw [if_neg hg]
      have h0 : F.num tr.minRate = F.num (hAt tr 0) := by rw [hAt_zero]
      rw [h0, approxLoopAux_eq tr f x fuel 0 n _ (by omega) (by omega) hn
        (fun k _ hk2 => hall k hk2), if_pos hbad]

/-- Closed instance of c4_adaptive_search with an everywhere-NaN
evaluator. -/
theorem c4_adaptive_search_witness :
    ∃ n, contCond tr0 fnan (F.num 0) n = false
      ∧ (∀ k, k < n → contCond tr0 fnan (F.num 0) k = true)
      ∧ approxLoopAux tr0 fnan (F.num 0) 2 (F.num tr0.minRate) (F.num 0, F.num 0)
          = riddersAtStep tr0 fnan (F.num 0) n
      ∧ (relErrBad tr0 (riddersAtStep tr0 fnan (F.num 0) n).1
            (riddersAtStep tr0 fnan (F.num 0) n).2 = true →
          templatedApproximate tr0 fnan (F.num 0) 2 = F.nan) :=
  c4_adaptive_search tr0 fnan (F.num 0) 1 2 (by decide) (by decide) (by decide)

/-- C7: if the evaluation point is NaN, or the function value at the
evaluation point is NaN, templatedApproximate returns the undefined (NaN)
value, whatever the traits and fuel — no step-search output is consulted. -/
theorem c7_undefined_guard (tr : Traits) (f : F → F) (argv : F) (fuel : ℕ)
    (h : argv.isnan = true ∨ (f argv).isnan = true) :
    templatedApproximate tr f argv fuel = F.nan := by
  have hg : (argv.isnan || (f argv).isnan) = true := by
    rcases h with h | h
    · rw [h, Bool.true_or]
    · rw [h, Bool.or_true]
  unfold templatedApproximate
  rw [if_pos hg]

/-- Closed instance of c7_undefined_guard at a NaN evaluation point. -/
theorem c7_undefined_guard_witness :
    templatedApproximate tr0 fid F.nan 3 = F.nan :=
  c7_undefined_guard tr0 fid F.nan 3 (Or.inl (by decide))

theorem pow10F_intCast (z : ℤ) : pow10F (F.num ((z : ℤ) : ℚ)) = F.num ((10:ℚ) ^ z) := by
  simp [pow10F, Rat.den_intCast, Rat.num_intCast]

theorem floorLog10F_pos (q : ℚ) (hq : 0 < q) :
    floorLog10F (F.num q) = F.num ((Int.log 10 q : ℤ) : ℚ) := by
  simp [floorLog10F, hq]

theorem roundF_num (q : ℚ) : roundF (F.num q) = F.num ((cRound q : ℤ) : ℚ) := rfl

/-- C5: when the adaptive loop exits with an acceptable (non-NaN) relative
error and the loop's `(result, error)` pair is the finite pair `(r, e)`:
if `|e|` is below the type's minimum positive magnitude the raw result is
returned unchanged, and otherwise the returned value is
`round(r / g) * g` for the decimal granularity
`g = 10^(floor(log10 |e|) + 2)`, computed exactly. -/
theorem c5_error_rounding (tr : Traits) (f : F → F) (argv : F) (fuel : ℕ) (r e : ℚ)
    (hg : (argv.isnan || (f argv).isnan) = false)
    (hre : approxLoopAux tr f argv fuel (F.num tr.minRate) (F.num 0, F.num 0)
      = (F.num r, F.num e))
    (hok : relErrBad tr (F.num r) (F.num e) = false)
    (hminPos : 0 < tr.minPos) :
    (|e| < tr.minPos → templatedApproximate tr f argv fuel = F.num r)
    ∧ (tr.minPos ≤ |e| →
        templatedApproximate tr f argv fuel
          = F.num ((cRound (r / 10 ^ (Int.log 10 |e| + 2)) : ℤ) * 10 ^ (Int.log 10 |e| + 2))) := by
  have hbase : templatedApproximate tr f argv fuel
      = (if F.lt (F.fabs (F.num e)) (F.num tr.minPos) then F.num r
         else F.mul (roundF (F.div (F.num r)
             (pow10F (F.add (floorLog10F (F.fabs (F.num e))) (F.num 2)))))
           (pow10F (F.add (floorLog10F (F.fabs (F.num e))) (F.num 2)))) := by
    unfold templatedApproximate
    simp only [hg, hre, hok, Bool.false_eq_true, if_false]
  constructor
  · intro hlt
    rw [hbase, F.fabs_num, if_pos]
    rw [F.lt_num]
    exact decide_eq_true hlt
  · intro hge
    have he0 : 0 < |e| := lt_of_lt_of_le hminPos hge
    rw [hbase, F.fabs_num, if_neg (by rw [F.lt_num, decide_eq_false (not_lt_of_le hge)]; simp)]
    rw [floorLog10F_pos _ he0, F.add_num]
    have hcast : ((Int.log 10 |e| : ℤ) : ℚ) + 2 = ((Int.log 10 |e| + 2 : ℤ) : ℚ) := by
      push_cast
      ring
    rw [hcast, pow10F_intCast]
    have hpow : ((10:ℚ) ^ (Int.log 10 |e| + 2)) ≠ 0 := by
      apply zpow_ne_zero
      norm_num
    rw [F.div_num _ _ hpow, roundF_num, F.mul_num]

/-- Closed instance of c5_error_rounding: the identity function at 0 gives
loop exit pair `(1, 0)`, and `|0|` is below the minimum magnitude, so the
raw result 1 is returned. -/
theorem c5_error_rounding_witness :
    (|(0:ℚ)| < tr0.minPos → templatedApproximate tr0 fid (F.num 0) 1 = F.num 1)
    ∧ (tr0.minPos ≤ |(0:ℚ)| →
        templatedApproximate tr0 fid (F.num 0) 1
          = F.num ((cRound (1 / 10 ^ (Int.log 10 |(0:ℚ)| + 2)) : ℤ)
              * 10 ^ (Int.log 10 |(0:ℚ)| + 2))) :=
  c5_error_rounding tr0 fid (F.num 0) 1 1 0 (by decide) (by decide) (by decide) (by decide)

/-- C8: DerivativeNode::polynomialDegree returns 0 exactly when all three
children have degree 0 with respect to the queried symbol; otherwise it
returns the generic ExpressionNode default ("unknown degree"), which is
never 0. -/
theorem c8_polynomial_degree (d0 d1 d2 : Int) :
    (DerivativeNode.polynomialDegree d0 d1 d2 = 0 ↔ d0 = 0 ∧ d1 = 0 ∧ d2 = 0)
    ∧ (¬(d0 = 0 ∧ d1 = 0 ∧ d2 = 0) →
        DerivativeNode.polynomialDegree d0 d1 d2 = ExpressionNode.polynomialDegree
        ∧ DerivativeNode.polynomialDegree d0 d1 d2 ≠ 0) := by
  unfold DerivativeNode.polynomialDegree ExpressionNode.polynomialDegree
  by_cases h : d0 = 0 ∧ d1 = 0 ∧ d2 = 0
  · rw [if_pos h]
    exact ⟨⟨fun _ => h, fun _ => rfl⟩, fun hc => absurd h hc⟩
  · rw [if_neg h]
    exact ⟨⟨fun hc => absurd hc (by decide), fun hh => absurd hh h⟩,
           fun _ => ⟨rfl, by decide⟩⟩

/-- Closed instance of c8_polynomial_degree. -/
theorem c8_polynomial_degree_witness :
    (DerivativeNode.polynomialDegree 0 0 1 = 0 ↔ (0:ℤ) = 0 ∧ (0:ℤ) = 0 ∧ (1:ℤ) = 0)
    ∧ (¬((0:ℤ) = 0 ∧ (0:ℤ) = 0 ∧ (1:ℤ) = 0) →
        DerivativeNode.polynomialDegree 0 0 1 = ExpressionNode.polynomialDegree
        ∧ DerivativeNode.polynomialDegree 0 0 1 ≠ 0) :=
  c8_polynomial_degree 0 0 1

theorem growthRateAroundAbscissaC_eq {Ctx : Type} (body : Ctx → F → F) (ctx : Ctx)
    (x h : F) :
    growthRateAroundAbscissaC body ctx x h
      = (growthRateAroundAbscissa (body ctx) x h, ctx) := rfl

theorem outerAuxC_eq {Ctx : Type} (tr : Traits) (body : Ctx → F → F) (x h : F) (ctx : Ctx) :
    ∀ (n i : ℕ) (s : RidState),
      outerAuxC tr body x h n i (s, ctx)
        = (outerAux tr.rate
            (fun i' => growthRateAroundAbscissa (body ctx) x (hhSeqF tr x h i')) n i s,
           ctx) := by
  intro n
  induction n with
  | zero => intro i s; rfl
  | succ n ih =>
    intro i s
    simp only [outerAuxC, outerAux, growthRateAroundAbscissaC_eq]
    split
    · rfl
    · exact ih (i+1) _

theorem riddersApproximationC_eq {Ctx : Type} (tr : Traits) (body : Ctx → F → F)
    (ctx : Ctx) (x h : F) :
    riddersApproximationC tr body ctx x h
      = (riddersApproximation tr (body ctx) x h, ctx) := by
  simp only [riddersApproximationC, riddersApproximation, riddersState,
    growthRateAroundAbscissaC_eq, outerAuxC_eq]

theorem approxLoopAuxC_eq {Ctx : Type} (tr : Traits) (body : Ctx → F → F) (ctx : Ctx)
    (x : F) :
    ∀ (n : ℕ) (stp : F) (re : F × F),
      approxLoopAuxC tr body x n stp (re, ctx)
        = (approxLoopAux tr (body ctx) x n stp re, ctx) := by
  intro n
  induction n with
  | zero => intro stp re; rfl
  | succ n ih =>
    intro stp re
    simp only [approxLoopAuxC, approxLoopAux, riddersApproximationC_eq]
    split
    · exact ih _ _
    · rfl

theorem templatedApproximateC_eq {Ctx : Type} (tr : Traits) (body : Ctx → F → F)
    (ctx : Ctx) (argv : F) (fuel : ℕ) :
    templatedApproximateC tr body ctx argv fuel
      = (templatedApproximate tr (body ctx) argv fuel, ctx) := by
  simp only [templatedApproximateC, templatedApproximate, approximateWithArgumentC,
    approxLoopAuxC_eq]
  split
  · rfl
  · split
    · rfl
    · split <;> rfl

/-- C9: templatedApproximate as a state transformer on the evaluation
context: one call leaves the context unchanged, and a second call run on
the context produced by the first returns the identical value — no state
accumulates across calls, since the symbol binding is re-established inside
every evaluation rather than inherited. -/
theorem c9_no_accumulated_state {Ctx : Type} (tr : Traits) (body : Ctx → F → F)
    (ctx : Ctx) (argv : F) (fuel : ℕ) :
    (templatedApproximateC tr body ctx argv fuel).2 = ctx
    ∧ (templatedApproximateC tr body
        ((templatedApproximateC tr body ctx argv fuel).2) argv fuel).1
        = (templatedApproximateC tr body ctx argv fuel).1 := by
  simp only [templatedApproximateC_eq]
  exact ⟨trivial, trivial⟩

/-- Closed instance of c9_no_accumulated_state over a unit context. -/
theorem c9_no_accumulated_state_witness :
    (templatedApproximateC tr0 (fun (_ : Unit) v => v) () (F.num 0) 1).2 = ()
    ∧ (templatedApproximateC tr0 (fun (_ : Unit) v => v)
        ((templatedApproximateC tr0 (fun (_ : Unit) v => v) () (F.num 0) 1).2)
        (F.num 0) 1).1
        = (templatedApproximateC tr0 (fun (_ : Unit) v => v) () (F.num 0) 1).1 :=
  c9_no_accumulated_state tr0 (fun (_ : Unit) v => v) () (F.num 0) 1

/-- Closed instance of c10_nan_growth. -/
theorem c10_nan_growth_witness :
    riddersApproximation tr0 fnan (F.num 0) (F.num 1) = (F.num 0, F.num tr0.maxVal)
    ∧ (∀ p ∈ (riddersState tr0 fnan (F.num 0) (F.num 1)).trace, p.1 = F.nan)
    ∧ (riddersState tr0 fnan (F.num 0) (F.num 1)).err.isnan = false
    ∧ relErrBad tr0 (F.num 0) (F.num tr0.maxVal) = true
    ∧ F.isnan (F.num tr0.maxVal) = false :=
  c10_nan_growth tr0 fnan (F.num 0) (F.num 1) (fun _ => rfl) (by decide)

/-- Closed instance of c1_amended_full_orders. -/
theorem c1_amended_full_orders_witness :
    (∀ j, 1 ≤ j → (riddersState tr0 fsq (F.num 0) (F.num 1)).a j 0 = F.num 1
      ∧ (riddersState tr0 fsq (F.num 0) (F.num 1)).comp j 0 = false)
    ∧ (∀ i, 1 ≤ i → (riddersState tr0 fsq (F.num 0) (F.num 1)).comp 0 i = true →
        ∀ j, 1 ≤ j → j ≤ 9 → (riddersState tr0 fsq (F.num 0) (F.num 1)).comp j i = true)
    ∧ (∀ j, 1 ≤ j → j ≤ 9 → (riddersState tr0 fsq (F.num 0) (F.num 1)).comp j 1 = true) :=
  c1_amended_full_orders tr0 fsq (F.num 0) (F.num 1)
